import Mathlib

/-!
Verification of the consola formatting/reporter pipeline against its
natural-language specification.

Terminal strings are modelled as lists of atomic segments: a visible
(non-newline) character, a line break, or an ANSI escape sequence kept
atomic together with its raw character length.  JavaScript `String.length`
corresponds to `rawLen`, `stripAnsi(s).length` to `visibleWidth`, and
`split("\n")` to `splitLines`.
-/

namespace Consola

/-- A segment of a terminal string: `ch c` is a visible, non-newline
character occupying one display column; `nl` is a line break; `esc n` is an
ANSI escape sequence of raw character length `n`, occupying zero display
columns. -/
inductive Seg where
  | ch (c : Char)
  | esc (n : Nat)
  | nl
deriving DecidableEq, Repr

/-- A terminal string: a list of segments. -/
abbrev Str := List Seg

/-- Raw character count of a string, as JavaScript `String.length` reports it
(escape sequences contribute their full character length). -/
def rawLen : Str → Nat
  | [] => 0
  | Seg.ch _ :: s => 1 + rawLen s
  | Seg.esc n :: s => n + rawLen s
  | Seg.nl :: s => 1 + rawLen s

/-- Embedding of `stripAnsi` (from `utils/string`): remove every ANSI escape
sequence, keep all visible characters and line breaks. -/
def stripAnsi (s : Str) : Str :=
  s.filter fun g =>
    match g with
    | Seg.esc _ => false
    | _ => true

/-- Visible (display-column) width of a string: the character count after
stripping ANSI escapes, each remaining character occupying one column. -/
def visibleWidth (s : Str) : Nat := (stripAnsi s).length

/-- Lift a Lean string literal to a terminal string; a `'\n'` character
becomes a `Seg.nl` line break. -/
def strLit (s : String) : Str :=
  s.toList.map fun c => if c = '\n' then Seg.nl else Seg.ch c

/-- A run of `n` spaces, as produced by `" ".repeat(n)`. -/
def spaces (n : Nat) : Str := List.replicate n (Seg.ch ' ')

/-- Concatenation of `n` copies of `s`, as produced by `s.repeat(n)`. -/
def repeatStr (s : Str) : Nat → Str
  | 0 => []
  | n + 1 => s ++ repeatStr s n

/-- Model of a colorette palette colour function with colours enabled: every
palette entry (`red`, `gray`, `cyan`, `bgRed`, ...) wraps its argument in an
SGR open/close escape pair, each of raw length 5 (for example
`"\x1b[31m" ... "\x1b[39m"`). -/
def ansiWrap (s : Str) : Str := Seg.esc 5 :: s ++ [Seg.esc 5]

/-- Split a string at its line breaks, exactly as JavaScript
`text.split("\n")`: the empty string yields one empty line. -/
def splitLines : Str → List Str
  | [] => [[]]
  | g :: s =>
    if g = Seg.nl then [] :: splitLines s
    else
      match splitLines s with
      | [] => [[g]]
      | l :: ls => (g :: l) :: ls

/-- Join a list of strings with the given separator, as JavaScript
`arr.join(sep)`. -/
def joinWith (sep : Str) : List Str → Str
  | [] => []
  | [l] => l
  | l :: ls => l ++ sep ++ joinWith sep ls

/-- Join a list of lines with line breaks, as `arr.join("\n")`. -/
def joinLines (ls : List Str) : Str := joinWith [Seg.nl] ls

/-! ## Box renderer (`src/utils/box.ts`) -/

/-- The six border glyphs of a box style (`BoxBorderStyle` in `box.ts`). -/
structure BoxBorderStyle where
  tl : Str
  tr : Str
  bl : Str
  br : Str
  h : Str
  v : Str
deriving DecidableEq, Repr

/-- The names of the entries of `boxStylePresets`. -/
inductive BorderName where
  | solid | double | doubleSingle | doubleSingleRounded
  | singleThick | singleDouble | singleDoubleRounded | rounded
deriving DecidableEq, Repr

/-- The `boxStylePresets` table. -/
def boxStylePresets : BorderName → BoxBorderStyle
  | .solid => ⟨[Seg.ch '┌'], [Seg.ch '┐'], [Seg.ch '└'], [Seg.ch '┘'], [Seg.ch '─'], [Seg.ch '│']⟩
  | .double => ⟨[Seg.ch '╔'], [Seg.ch '╗'], [Seg.ch '╚'], [Seg.ch '╝'], [Seg.ch '═'], [Seg.ch '║']⟩
  | .doubleSingle => ⟨[Seg.ch '╓'], [Seg.ch '╖'], [Seg.ch '╙'], [Seg.ch '╜'], [Seg.ch '─'], [Seg.ch '║']⟩
  | .doubleSingleRounded => ⟨[Seg.ch '╭'], [Seg.ch '╮'], [Seg.ch '╰'], [Seg.ch '╯'], [Seg.ch '─'], [Seg.ch '║']⟩
  | .singleThick => ⟨[Seg.ch '┏'], [Seg.ch '┓'], [Seg.ch '┗'], [Seg.ch '┛'], [Seg.ch '━'], [Seg.ch '┃']⟩
  | .singleDouble => ⟨[Seg.ch '╒'], [Seg.ch '╕'], [Seg.ch '╘'], [Seg.ch '╛'], [Seg.ch '═'], [Seg.ch '│']⟩
  | .singleDoubleRounded => ⟨[Seg.ch '╭'], [Seg.ch '╮'], [Seg.ch '╰'], [Seg.ch '╯'], [Seg.ch '═'], [Seg.ch '│']⟩
  | .rounded => ⟨[Seg.ch '╭'], [Seg.ch '╮'], [Seg.ch '╰'], [Seg.ch '╯'], [Seg.ch '─'], [Seg.ch '│']⟩

/-- A `borderStyle` option: a preset name or an explicit glyph record
(`BoxBorderStyle | keyof typeof boxStylePresets`). -/
inductive BorderStyleSpec where
  | preset (name : BorderName)
  | explicit (b : BoxBorderStyle)
deriving DecidableEq, Repr

def resolveBorder : BorderStyleSpec → BoxBorderStyle
  | .preset n => boxStylePresets n
  | .explicit b => b

inductive Valign where
  | top | center | bottom
deriving DecidableEq, Repr

/-- A fully resolved `BoxStyle`. -/
structure BoxStyle where
  borderColor : String
  borderStyle : BorderStyleSpec
  valign : Valign
  padding : Nat
deriving DecidableEq, Repr

/-- A partial `BoxStyle` as callers may pass it; merged over `defaultStyle` by
`{ ...defaultStyle, ..._opts.style }`. -/
structure PartialBoxStyle where
  borderColor : Option String := none
  borderStyle : Option BorderStyleSpec := none
  valign : Option Valign := none
  padding : Option Nat := none
deriving DecidableEq, Repr

/-- The spread `{ ...defaultStyle, ..._opts.style }` with
`defaultStyle = { borderColor: "white", borderStyle: "solid", valign: "center", padding: 2 }`. -/
def resolveStyle (p : PartialBoxStyle) : BoxStyle :=
  ⟨p.borderColor.getD "white", p.borderStyle.getD (.preset .solid),
    p.valign.getD .center, p.padding.getD 2⟩

/-- The `BoxOpts` record: optional title plus a (partial) style. -/
structure BoxOpts where
  title : Option Str := none
  style : PartialBoxStyle := {}
deriving DecidableEq, Repr

/-- Colorize each border glyph with the configured border colour, as the
`for (const key in borderStyle)` loop does.  Every one of the 16 admissible
`borderColor` names is a colorette palette entry, so `_color` is the SGR
wrap. -/
def colorizeBorder (b : BoxBorderStyle) : BoxBorderStyle :=
  ⟨ansiWrap b.tl, ansiWrap b.tr, ansiWrap b.bl, ansiWrap b.br, ansiWrap b.h, ansiWrap b.v⟩

/-- `Math.max(...xs)` over a non-empty list of naturals (seeded with 0). -/
def natMax (l : List Nat) : Nat := l.foldl Nat.max 0

/-- `padding % 2 === 0 ? padding : padding + 1`. -/
def paddingOffsetOf (padding : Nat) : Nat :=
  if padding % 2 = 0 then padding else padding + 1

/-- `Math.max(...textLines.map((line) => line.length)) + paddingOffset` —
note the code measures raw `line.length`, not the ANSI-stripped width. -/
def widthOf (text : Str) (padding : Nat) : Nat :=
  natMax ((splitLines text).map rawLen) + paddingOffsetOf padding

def widthOffsetOf (text : Str) (padding : Nat) : Nat :=
  widthOf text padding + paddingOffsetOf padding

/-- The top border row.  With a truthy title, the fills are
`h.repeat(Math.floor((width - stripAnsi(title).length) / 2))` on the left and
`h.repeat(width - stripAnsi(title).length - stripAnsi(left).length + paddingOffset)`
on the right; a negative repeat count throws a `RangeError` in JavaScript,
modelled as `none`.  `Math.floor((w - t) / 2)` is negative exactly when
`t > w`, which the first guard checks. -/
def topLineOf (bs : BoxBorderStyle) (title : Option Str) (w pOff : Nat) : Option Str :=
  match title with
  | some t =>
    if t.isEmpty then some (bs.tl ++ repeatStr bs.h (w + pOff) ++ bs.tr)
    else if w < visibleWidth t then none
    else
      let lcount := (w - visibleWidth t) / 2
      let leftFill := repeatStr bs.h lcount
      let rc : Int := (w : Int) - visibleWidth t - visibleWidth leftFill + pOff
      if rc < 0 then none
      else some (bs.tl ++ leftFill ++ t ++ repeatStr bs.h rc.toNat ++ bs.tr)
  | none => some (bs.tl ++ repeatStr bs.h (w + pOff) ++ bs.tr)

/-- The `valignOffset` ternary: `center → floor((height - n)/2)`,
`top → height - n - paddingOffset`, `bottom → height - n`. -/
def valignOffsetOf (valign : Valign) (height n pOff : Nat) : Nat :=
  match valign with
  | .center => (height - n) / 2
  | .top => height - n - pOff
  | .bottom => height - n

/-- The `for (let i = 0; i < height; i++)` loop producing the bordered body
rows. -/
def middleRowsOf (bs : BoxBorderStyle) (textLines : List Str) (valign : Valign)
    (w pOff : Nat) : List Str :=
  let height := textLines.length + pOff
  let valignOffset := valignOffsetOf valign height textLines.length pOff
  (List.range height).map fun i =>
    if i < valignOffset ∨ valignOffset + textLines.length ≤ i then
      bs.v ++ spaces (w + pOff) ++ bs.v
    else
      let line := textLines.getD (i - valignOffset) []
      bs.v ++ spaces pOff ++ line ++ spaces (w - visibleWidth line) ++ bs.v

def bottomRowOf (bs : BoxBorderStyle) (wOff : Nat) : Str :=
  bs.bl ++ repeatStr bs.h wOff ++ bs.br

def borderOf (st : BoxStyle) : BoxBorderStyle :=
  colorizeBorder (resolveBorder st.borderStyle)

/-- Embedding of `box(text, _opts)` from `src/utils/box.ts`, producing the
list of rows (`boxLines` in the source) before the final `join("\n")`. -/
def boxLines (text : Str) (opts : BoxOpts) : Option (List Str) :=
  let st := resolveStyle opts.style
  let textLines := splitLines text
  let bs := colorizeBorder (resolveBorder st.borderStyle)
  let pOff := paddingOffsetOf st.padding
  let w := natMax (textLines.map rawLen) + pOff
  match topLineOf bs opts.title w pOff with
  | none => none
  | some top =>
    some (top :: middleRowsOf bs textLines st.valign w pOff ++ [bottomRowOf bs (w + pOff)])

/-- `box(text, _opts)` itself: the rows joined with `"\n"`. -/
def boxStr (text : Str) (opts : BoxOpts) : Option Str :=
  (boxLines text opts).map joinLines

/-! ## Error and stack formatting (`reporters/basic`, `reporters/fancy`) -/

/-- The resolved `FormatOptions` a reporter formats with: `columns` is the
terminal width (0 if unknown), `date` whether to render a timestamp,
`errorLevel` the cause-chain recursion depth. -/
structure FormatOptions where
  columns : Nat := 0
  date : Bool := false
  errorLevel : Nat := 0
deriving DecidableEq, Repr

/-- An error-like value: a message, an optional stack trace, and an optional
`cause`, which is a reference into a heap of error objects so that cyclic
cause chains (an error being its own cause) are expressible, as they are in
JavaScript. -/
structure ErrObj where
  message : Str
  stack : Option Str
  cause : Option Nat
deriving DecidableEq, Repr

/-- A heap of error objects; `ErrObj.cause` indexes into it. -/
abbrev ErrHeap := Nat → ErrObj

/-- Modelled from the spec: `parseStack` lives in `src/utils/error.ts`, which
is not part of the provided sources.  Per §4.2 it parses the stack trace into
frame lines, "discarding the first line (error message header) and any frame
lines not matching a 'location' pattern"; frames are trimmed so the reporters'
anchored `/^at +/` replacement can match. -/
def isSpaceSeg (g : Seg) : Bool :=
  match g with
  | Seg.ch c => c = ' '
  | _ => false

def trimStr (s : Str) : Str :=
  ((s.dropWhile isSpaceSeg).reverse.dropWhile isSpaceSeg).reverse

/-- Modelled from the spec: a frame line matches the "location" pattern when
it starts with `at `. -/
def isLocationFrame (l : Str) : Bool :=
  l.take 3 == strLit "at "

/-- Modelled from the spec: `parseStack` (missing `src/utils/error.ts`),
see `isSpaceSeg`/`trimStr`/`isLocationFrame` above. -/
def parseStack (stack : Str) : List Str :=
  (((splitLines stack).drop 1).map trimStr).filter isLocationFrame

/-- `BasicReporter.formatStack`: indent every parsed frame by
`"  ".repeat((opts?.errorLevel || 0) + 1)` and join with newlines. -/
def basicFormatStack (stack : Str) (opts : FormatOptions) : Str :=
  let indent := spaces (2 * (opts.errorLevel + 1))
  indent ++ joinWith (Seg.nl :: indent) (parseStack stack)

/-- The anchored replacement `line.replace(/^at +/, (m) => colors.gray(m))`:
if the line starts with `at` followed by one or more spaces, wrap that prefix
in the gray SGR pair; otherwise leave the line unchanged. -/
def replaceAtPrefix (line : Str) : Str :=
  match line with
  | g1 :: g2 :: rest =>
    if g1 = Seg.ch 'a' ∧ g2 = Seg.ch 't' ∧ (rest.takeWhile isSpaceSeg).isEmpty = false then
      ansiWrap (g1 :: g2 :: rest.takeWhile isSpaceSeg) ++ rest.dropWhile isSpaceSeg
    else line
  | _ => line

/-- Split `s` as `before ++ [')'] ++ after` where the `')'` is the last one
in `s`; `none` when `s` has no `')'`. -/
def splitAtLastClose : Str → Option (Str × Str)
  | [] => none
  | g :: rest =>
    match splitAtLastClose rest with
    | some (a, b) => some (g :: a, b)
    | none => if g = Seg.ch ')' then some ([], rest) else none

/-- The replacement `line.replace(/\((.+)\)/, (_, m) => "(" + colors.cyan(m) + ")")`:
the leftmost `(` that is followed, at distance at least two, by a `)` starts
the match; the greedy `.+` extends to the last `)` of the line; only the
first match is replaced. -/
def replaceParens : Str → Str
  | [] => []
  | g :: rest =>
    if g = Seg.ch '(' then
      match splitAtLastClose rest with
      | some (inner, after) =>
        if inner.isEmpty then g :: replaceParens rest
        else Seg.ch '(' :: (ansiWrap inner ++ (Seg.ch ')' :: after))
      | none => g :: replaceParens rest
    else g :: replaceParens rest

/-- `FancyReporter.formatStack`: a fixed two-space indent per frame (the
error level is not consulted), with the `at ` prefix grayed and the
parenthesised locator cyaned, prefixed by a newline. -/
def fancyFormatStack (stack : Str) : Str :=
  Seg.nl :: joinWith [Seg.nl]
    ((parseStack stack).map fun line => spaces 2 ++ replaceParens (replaceAtPrefix line))

/-- `BasicReporter.formatError`, parameterised by the dynamically dispatched
`this.formatStack` (the Fancy reporter overrides it).  The source recurses on
`err.cause` unconditionally; the recursion is made total here with an
explicit `fuel` bound, `none` meaning the recursion exceeds every bound,
i.e. the source diverges.  Errors carry a `message` string (`err.message ??
formatWithOptions(...)` only falls back for message-less values). -/
def formatErrorWith (fmtStack : Str → FormatOptions → Str) (heap : ErrHeap) :
    Nat → Nat → FormatOptions → Option Str
  | 0, _, _ => none
  | fuel + 1, i, opts =>
    let err := heap i
    let message := err.message
    let stack :=
      match err.stack with
      | some st => fmtStack st opts
      | none => []
    let level := opts.errorLevel
    let causedPrefix :=
      if 0 < level then spaces (2 * level) ++ strLit "[cause]: " else []
    match err.cause with
    | some j =>
      match formatErrorWith fmtStack heap fuel j { opts with errorLevel := level + 1 } with
      | none => none
      | some causedError =>
        some (causedPrefix ++ message ++ Seg.nl :: stack ++ Seg.nl :: Seg.nl :: causedError)
    | none => some (causedPrefix ++ message ++ Seg.nl :: stack)

/-! ## Reporters -/

/-- An argument of a log call: a string value, or an error-like value
referenced in an `ErrHeap` (the `arg && typeof arg.stack === "string"` test
selects the latter for error formatting). -/
inductive LogArg where
  | str (s : Str)
  | err (i : Nat)
deriving DecidableEq, Repr

/-- The log record passed to a reporter.  `tag`, `date` and `icon` model the
corresponding (possibly empty / falsy) string fields; `date` is the
locale-rendered timestamp (`date.toLocaleTimeString()` is host behaviour). -/
structure LogObject where
  type : String
  level : Int
  args : List LogArg
  tag : Str := []
  date : Str := []
  title : Option Str := none
  style : PartialBoxStyle := {}
  badge : Option Bool := none
  icon : Str := []
deriving DecidableEq, Repr

/-- `(x) => (x ? "[" + x + "]" : "")`. -/
def bracket (x : Str) : Str :=
  if x.isEmpty then [] else Seg.ch '[' :: (x ++ [Seg.ch ']'])

/-- `arr.filter(Boolean).join(" ")`. -/
def filterAndJoin (arr : List Str) : Str :=
  joinWith (strLit " ") (arr.filter fun s => !s.isEmpty)

/-- `formatDate`: the locale time string when `opts.date` is set, else the
empty string. -/
def formatDate (date : Str) (opts : FormatOptions) : Str :=
  if opts.date then date else []

/-- One argument of `formatArgs`: values carrying a stack trace go through
`this.formatError`; other values are rendered by `formatWithOptions`'s
default string conversion (modelled from the spec as the error's message for
error values without a stack, and the string itself otherwise). -/
def formatArg (fmtStack : Str → FormatOptions → Str) (heap : ErrHeap) (fuel : Nat)
    (opts : FormatOptions) : LogArg → Option Str
  | .str s => some s
  | .err i =>
    if ((heap i).stack).isSome then formatErrorWith fmtStack heap fuel i opts
    else some (heap i).message

/-- Modelled from the spec: `formatWithOptions` (from `node:util`, external)
is a "locale/format-aware join (printf-style plus default string conversion
for non-string values)"; modelled as the space-join of the rendered
arguments. -/
def formatArgsWith (fmtStack : Str → FormatOptions → Str) (heap : ErrHeap) (fuel : Nat)
    (args : List LogArg) (opts : FormatOptions) : Option Str :=
  (args.mapM (formatArg fmtStack heap fuel opts)).map (joinWith (strLit " "))

/-- `BasicReporter.formatLogObj`. -/
def basicFormatLogObj (heap : ErrHeap) (fuel : Nat) (lo : LogObject)
    (opts : FormatOptions) : Option Str :=
  (formatArgsWith basicFormatStack heap fuel lo.args opts).map fun message =>
    if lo.type = "box" then
      Seg.nl ::
        (joinLines ((([bracket lo.tag, lo.title.getD []] ++ splitLines message).filter
          fun l => !l.isEmpty).map fun l => strLit " > " ++ l)
        ++ [Seg.nl])
    else
      filterAndJoin [bracket (strLit lo.type), bracket lo.tag, message]

/-- The slice of `ConsolaOptions` that `formatLine`/`log` consult: the
stdout stream's column count and the configured partial `formatOptions`
(spread over `{ columns: stdout.columns || 0 }`). -/
structure ConsolaOptions where
  stdoutColumns : Option Nat := none
  fmtColumns : Option Nat := none
  fmtDate : Option Bool := none
  fmtErrorLevel : Option Nat := none
deriving DecidableEq, Repr

/-- `formatLine`: build the `FormatOptions` from the context (`columns` from
the configured format options if present, else `stdout.columns || 0`) and
format. -/
def basicFormatLine (heap : ErrHeap) (fuel : Nat) (lo : LogObject)
    (ctx : ConsolaOptions) : Option Str :=
  basicFormatLogObj heap fuel lo
    { columns := ctx.fmtColumns.getD (ctx.stdoutColumns.getD 0),
      date := ctx.fmtDate.getD false,
      errorLevel := ctx.fmtErrorLevel.getD 0 }

/-- The two output streams `log` can write to. -/
inductive StreamKind where
  | stdout | stderr
deriving DecidableEq, Repr

/-- `BasicReporter.log`: write `line + "\n"` to stderr when `level < 2`,
else to stdout.  The effect is modelled by returning the chosen stream and
the written bytes. -/
def basicLog (heap : ErrHeap) (fuel : Nat) (lo : LogObject) (ctx : ConsolaOptions) :
    Option (StreamKind × Str) :=
  (basicFormatLine heap fuel lo ctx).map fun line =>
    (if lo.level < 2 then StreamKind.stderr else StreamKind.stdout, line ++ [Seg.nl])

/-! ## Fancy reporter -/

/-- `TYPE_COLOR_MAP`. -/
def TYPE_COLOR_MAP : String → Option String
  | "info" => some "cyan"
  | "fail" => some "red"
  | "success" => some "green"
  | "ready" => some "green"
  | "start" => some "magenta"
  | _ => none

/-- `LEVEL_COLOR_MAP`. -/
def LEVEL_COLOR_MAP : Int → Option String
  | 0 => some "red"
  | 1 => some "yellow"
  | _ => none

/-- `TYPE_ICONS`, parameterised by the process-wide unicode capability flag
(`isUnicodeSupported()`); note `log` maps to the empty string. -/
def TYPE_ICONS (unicode : Bool) : String → Option Str
  | "error" => some (strLit (if unicode then "✖" else "×"))
  | "fatal" => some (strLit (if unicode then "✖" else "×"))
  | "ready" => some (strLit (if unicode then "✔" else "√"))
  | "warn" => some (strLit (if unicode then "⚠" else "‼"))
  | "info" => some (strLit (if unicode then "ℹ" else "i"))
  | "success" => some (strLit (if unicode then "✔" else "√"))
  | "debug" => some (strLit (if unicode then "⚙" else "D"))
  | "trace" => some (strLit "→")
  | "fail" => some (strLit (if unicode then "✖" else "×"))
  | "start" => some (strLit (if unicode then "◐" else "o"))
  | "log" => some []
  | _ => none

/-- The colour fallback chain of `FancyReporter.formatType`:
`TYPE_COLOR_MAP[type] || LEVEL_COLOR_MAP[level] || "gray"`. -/
def typeColorOf (lo : LogObject) : String :=
  ((TYPE_COLOR_MAP lo.type).orElse fun _ => LEVEL_COLOR_MAP lo.level).getD "gray"

/-- `getColor(color)`: every named colour resolves to a colorette palette
function (falling back to `colors.white`), i.e. an SGR wrap. -/
def getColor (_color : String) : Str → Str := ansiWrap

/-- `getBgColor(color)`: the `bg`-prefixed palette entry (falling back to
`colors.bgWhite`), again an SGR wrap. -/
def getBgColor (_color : String) : Str → Str := ansiWrap

/-- `FancyReporter.formatType`. -/
def fancyFormatType (unicode : Bool) (lo : LogObject) (isBadge : Bool) : Str :=
  let typeColor := typeColorOf lo
  if isBadge then
    getBgColor typeColor (getColor "black" (strLit " " ++ strLit lo.type.toUpper ++ strLit " "))
  else
    let t :=
      match TYPE_ICONS unicode lo.type with
      | some i => i
      | none => if lo.icon.isEmpty then strLit lo.type else lo.icon
    if t.isEmpty then [] else getColor typeColor t

/-- State machine for the global replacement
`str.replace(/`([^`]+)`/gm, (_, m) => colors.cyan(m))`: outside a backtick
(`buf = none`) characters pass through; after an opening backtick the
segments are buffered (reversed); a closing backtick over a non-empty buffer
emits the buffer cyan-wrapped, while over an empty buffer the earlier
backtick is emitted literally (a `` `` pair cannot match the one-or-more
group) and the new backtick becomes the candidate opener; an unclosed
backtick at the end is emitted literally. -/
def btick : Seg := Seg.ch (Char.ofNat 96)

def hbAux : Str → Option Str → Str
  | [], none => []
  | [], some buf => btick :: buf.reverse
  | g :: rest, none =>
    if g = btick then hbAux rest (some []) else g :: hbAux rest none
  | g :: rest, some buf =>
    if g = btick then
      if buf.isEmpty then btick :: hbAux rest (some [])
      else ansiWrap buf.reverse ++ hbAux rest none
    else hbAux rest (some (g :: buf))

def highlightBackticks (s : Str) : Str := hbAux s none

/-- Modelled from the spec: the `string-width` package measures terminal
display columns ignoring ANSI escapes; one column per visible character. -/
def stringWidth (s : Str) : Nat := visibleWidth s

/-- The right-hand segment of the Fancy non-box layout:
`this.filterAndJoin(opts.columns ? [tag, coloredDate] : [tag])`. -/
def fancyRight (tag coloredDate : Str) (columns : Nat) : Str :=
  filterAndJoin (if columns = 0 then [tag] else [tag, coloredDate])

/-- `FancyReporter.formatLogObj`.  `capturedStack` is the stack of the
`new Error("Trace: " + ...)` synthesised at format time for `trace` records
(host behaviour, supplied as a parameter). -/
def fancyFormatLogObj (unicode : Bool) (heap : ErrHeap) (fuel : Nat)
    (capturedStack : Str) (lo : LogObject) (opts : FormatOptions) : Option Str :=
  (formatArgsWith (fun s _ => fancyFormatStack s) heap fuel lo.args opts).bind
    fun formatted =>
      let message := (splitLines formatted).headI
      let additional := (splitLines formatted).tail
      if lo.type = "box" then
        boxStr (highlightBackticks message) ⟨lo.title, lo.style⟩
      else
        let date := formatDate lo.date opts
        let coloredDate := if date.isEmpty then [] else ansiWrap date
        let isBadge := lo.badge.getD (decide (lo.level < 2))
        let type := fancyFormatType unicode lo isBadge
        let tag := if lo.tag.isEmpty then [] else ansiWrap lo.tag
        let left := filterAndJoin [type, highlightBackticks message]
        let right := fancyRight tag coloredDate opts.columns
        let space : Int :=
          (opts.columns : Int) - stringWidth left - stringWidth right - 2
        let line :=
          if 0 < space ∧ 80 ≤ opts.columns then
            left ++ spaces space.toNat ++ right
          else
            (if right.isEmpty then []
             else ansiWrap (Seg.ch '[' :: right ++ [Seg.ch ']']) ++ strLit " ") ++ left
        let line := line ++ highlightBackticks
          (if additional.isEmpty then [] else Seg.nl :: joinLines additional)
        let line := if lo.type = "trace" then line ++ fancyFormatStack capturedStack else line
        some (if isBadge then Seg.nl :: line ++ [Seg.nl] else line)

/-! ## Derived predicates and concrete instances used by the verification -/

/-- The width the specification prescribes for a box: the maximum *visible*
line width plus the padding (`width = max(visibleWidth(line)) + padding`). -/
def specWidthOf (text : Str) (padding : Nat) : Nat :=
  natMax ((splitLines text).map visibleWidth) + paddingOffsetOf padding

def specWidthOffsetOf (text : Str) (padding : Nat) : Nat :=
  specWidthOf text padding + paddingOffsetOf padding

/-- Each of the six border glyphs occupies one display column (true of every
preset; an explicit `BoxBorderStyle` is supposed to hold single glyphs). -/
def glyphsVisOne (b : BoxBorderStyle) : Prop :=
  visibleWidth b.tl = 1 ∧ visibleWidth b.tr = 1 ∧ visibleWidth b.bl = 1 ∧
  visibleWidth b.br = 1 ∧ visibleWidth b.h = 1 ∧ visibleWidth b.v = 1

/-- None of the six border glyphs contains a line break. -/
def glyphsNlFree (b : BoxBorderStyle) : Prop :=
  Seg.nl ∉ b.tl ∧ Seg.nl ∉ b.tr ∧ Seg.nl ∉ b.bl ∧
  Seg.nl ∉ b.br ∧ Seg.nl ∉ b.h ∧ Seg.nl ∉ b.v

instance (b : BoxBorderStyle) : Decidable (glyphsVisOne b) := by
  unfold glyphsVisOne
  infer_instance

instance (b : BoxBorderStyle) : Decidable (glyphsNlFree b) := by
  unfold glyphsNlFree
  infer_instance

/-- The number of horizontal glyphs in the left title fill:
`Math.floor((width - visibleWidth(title)) / 2)` (for a title no wider than
the box). -/
def leftFillCount (w tv : Nat) : Nat := (w - tv) / 2

/-- The number of horizontal glyphs in the right title fill:
`width - visibleWidth(title) - leftFill + paddingOffset`. -/
def rightFillCount (w tv pOff : Nat) : Nat := w - tv - leftFillCount w tv + pOff

/-- `l` is indented by exactly `k` spaces: it starts with `k` spaces and the
next segment, if any, is not a space. -/
def exactIndent (k : Nat) (l : Str) : Prop :=
  l.take k = spaces k ∧ (l.drop k).head? ≠ some (Seg.ch ' ')

instance (k : Nat) (l : Str) : Decidable (exactIndent k l) := by
  unfold exactIndent
  infer_instance

/-- A heap with no interesting errors. -/
def heap0 : ErrHeap := fun _ => ⟨[], none, none⟩

/-- A heap whose error 0 is its own cause (`err.cause === err`), the shape
JavaScript allows and the spec's §9 open question warns about. -/
def selfCauseHeap : ErrHeap := fun _ => ⟨strLit "boom", none, some 0⟩

/-- A simple info record (end-to-end scenario 1 of §8). -/
def loInfo : LogObject :=
  ⟨"info", 3, [LogArg.str (strLit "hello")], strLit "app", [], none, {}, none, []⟩

/-- A record with an unknown type and level 1 (badge fallback test of §8). -/
def loUnknown : LogObject := ⟨"unknownType", 1, [], [], [], none, {}, none, []⟩

/-- A record with an unknown type and a level outside the level table. -/
def loWeird : LogObject := ⟨"weird", 5, [], [], [], none, {}, none, []⟩

/-- A gray-wrapped tag and date as the Fancy layout builds them. -/
def tagApp : Str := ansiWrap (strLit "app")

def dateNoon : Str := ansiWrap (strLit "12:00:00")

/-- A one-line text whose only line is colorized: visible width 2, raw
length 12. -/
def coloredAB : Str := [Seg.esc 5, Seg.ch 'a', Seg.ch 'b', Seg.esc 5]

/-- A stack trace with a header line and one location frame. -/
def stackOneFrame : Str := strLit "Error: x\nat f (a:1:1)"

/-! ## Lemmas -/

/- Basic width lemmas. -/

theorem stripAnsi_append (a b : Str) :
    stripAnsi (a ++ b) = stripAnsi a ++ stripAnsi b := by
  simp [stripAnsi, List.filter_append]

theorem visibleWidth_append (a b : Str) :
    visibleWidth (a ++ b) = visibleWidth a + visibleWidth b := by
  simp [visibleWidth, stripAnsi_append]

theorem visibleWidth_ansiWrap (s : Str) :
    visibleWidth (ansiWrap s) = visibleWidth s := by
  simp [ansiWrap, visibleWidth, stripAnsi]

theorem visibleWidth_spaces (n : Nat) : visibleWidth (spaces n) = n := by
  induction n with
  | zero => rfl
  | succ k ih =>
    have h1 : spaces (k + 1) = Seg.ch ' ' :: spaces k := by
      simp [spaces, List.replicate_succ]
    have h2 : stripAnsi (Seg.ch ' ' :: spaces k) = Seg.ch ' ' :: stripAnsi (spaces k) := by
      simp [stripAnsi]
    simp only [visibleWidth] at ih ⊢
    rw [h1, h2, List.length_cons, ih]

theorem visibleWidth_repeatStr (s : Str) (n : Nat) :
    visibleWidth (repeatStr s n) = n * visibleWidth s := by
  induction n with
  | zero => simp [repeatStr, visibleWidth, stripAnsi]
  | succ k ih =>
    simp [repeatStr, visibleWidth_append, ih, Nat.succ_mul, Nat.add_comm]

theorem visibleWidth_le_rawLen (s : Str) : visibleWidth s ≤ rawLen s := by
  induction s with
  | nil => simp [visibleWidth, stripAnsi, rawLen]
  | cons g s ih =>
    cases g <;> simp [visibleWidth, stripAnsi, rawLen, List.filter] at ih ⊢ <;> omega

/- splitLines lemmas. -/

theorem splitLines_ne_nil (s : Str) : splitLines s ≠ [] := by
  induction s with
  | nil => simp [splitLines]
  | cons g s ih =>
    by_cases h : g = Seg.nl
    · simp [splitLines, h]
    · simp only [splitLines, if_neg h]
      cases hs : splitLines s with
      | nil => simp
      | cons l ls => simp

theorem splitLines_nlFree (s : Str) : ∀ l ∈ splitLines s, Seg.nl ∉ l := by
  induction s with
  | nil => simp [splitLines]
  | cons g s ih =>
    by_cases h : g = Seg.nl
    · simpa [splitLines, h] using ih
    · simp only [splitLines, if_neg h]
      cases hs : splitLines s with
      | nil => simp [Ne.symm h]
      | cons l ls =>
        intro m hm
        rcases List.mem_cons.mp hm with hm | hm
        · subst hm
          intro hmem
          rcases List.mem_cons.mp hmem with h1 | h1
          · exact h h1.symm
          · exact ih l (by simp [hs]) h1
        · exact ih m (by simp [hs, hm])

theorem splitLines_append_of_nlFree (a : Str) (ha : Seg.nl ∉ a) (s : Str) :
    splitLines (a ++ s) = (a ++ (splitLines s).headI) :: (splitLines s).tail := by
  induction a with
  | nil =>
    cases hs : splitLines s with
    | nil => exact absurd hs (splitLines_ne_nil s)
    | cons l ls => simp [hs]
  | cons g a ih =>
    have hg : g ≠ Seg.nl := by intro h; exact ha (by simp [h])
    have ha' : Seg.nl ∉ a := fun h => ha (by simp [h])
    simp only [List.cons_append, splitLines, if_neg hg]
    rw [show a.append s = a ++ s from rfl, ih ha']

theorem splitLines_of_nlFree (a : Str) (ha : Seg.nl ∉ a) : splitLines a = [a] := by
  have := splitLines_append_of_nlFree a ha []
  simpa [splitLines] using this

theorem splitLines_nl_cons (s : Str) :
    splitLines (Seg.nl :: s) = [] :: splitLines s := by
  simp [splitLines]

theorem splitLines_append_nl (a : Str) (ha : Seg.nl ∉ a) (s : Str) :
    splitLines (a ++ Seg.nl :: s) = a :: splitLines s := by
  rw [splitLines_append_of_nlFree a ha]
  simp [splitLines_nl_cons]

/-- Splitting `a ++ [].join(sep)` for newline-free `a`. -/
theorem splitLines_joinWith_nil (b a : Str) (ha : Seg.nl ∉ a) :
    splitLines (a ++ joinWith (Seg.nl :: b) []) = [a] := by
  simpa [joinWith] using splitLines_of_nlFree a ha

/-- Splitting the join `a ++ (f :: fs).join(sep)` where `sep = "\n" ++ b` and
all pieces are newline-free: the rows come back out, the first prefixed by
`a`, the later ones by `b`. -/
theorem splitLines_joinWith_cons (b : Str) (hb : Seg.nl ∉ b) :
    ∀ (f : Str) (fs : List Str) (a : Str), Seg.nl ∉ f → (∀ g ∈ fs, Seg.nl ∉ g) →
      Seg.nl ∉ a →
      splitLines (a ++ joinWith (Seg.nl :: b) (f :: fs)) =
        (a ++ f) :: fs.map (b ++ ·) := by
  intro f fs
  induction fs generalizing f with
  | nil =>
    intro a hf _ ha
    have : Seg.nl ∉ a ++ f := by
      intro h
      rcases List.mem_append.mp h with h | h
      · exact ha h
      · exact hf h
    simpa [joinWith] using splitLines_of_nlFree (a ++ f) this
  | cons f2 rest2 ih =>
    intro a hf hfs ha
    have haf : Seg.nl ∉ a ++ f := by
      intro h
      rcases List.mem_append.mp h with h | h
      · exact ha h
      · exact hf h
    have step : a ++ joinWith (Seg.nl :: b) (f :: f2 :: rest2) =
        (a ++ f) ++ Seg.nl :: (b ++ joinWith (Seg.nl :: b) (f2 :: rest2)) := by
      simp [joinWith]
    rw [step, splitLines_append_nl (a ++ f) haf]
    rw [ih f2 b (hfs f2 (by simp)) (fun g hg => hfs g (by simp [hg])) hb]
    simp

theorem splitLines_joinLines (rows : List Str) (hrows : ∀ r ∈ rows, Seg.nl ∉ r)
    (hne : rows ≠ []) : splitLines (joinLines rows) = rows := by
  cases rows with
  | nil => exact absurd rfl hne
  | cons r rest =>
    have h := splitLines_joinWith_cons [] (by simp) r rest []
      (hrows r (by simp)) (fun g hg => hrows g (by simp [hg])) (by simp)
    simpa [joinLines] using h

/- natMax lemmas. -/

theorem le_foldl_max (l : List Nat) : ∀ acc : Nat,
    acc ≤ l.foldl Nat.max acc ∧ ∀ a ∈ l, a ≤ l.foldl Nat.max acc := by
  induction l with
  | nil => intro acc; simp
  | cons x xs ih =>
    intro acc
    have h := ih (Nat.max acc x)
    constructor
    · exact le_trans (Nat.le_max_left acc x) h.1
    · intro a ha
      rcases List.mem_cons.mp ha with ha | ha
      · subst ha
        exact le_trans (Nat.le_max_right acc a) h.1
      · exact h.2 a ha

theorem le_natMax_of_mem {a : Nat} {l : List Nat} (h : a ∈ l) : a ≤ natMax l :=
  (le_foldl_max l 0).2 a h

theorem getD_mem {α : Type} (l : List α) (k : Nat) (d : α) (h : k < l.length) :
    l.getD k d ∈ l := by
  induction l generalizing k with
  | nil => simp at h
  | cons x xs ih =>
    cases k with
    | zero => simp
    | succ k =>
      simp only [List.getD_cons_succ]
      exact List.mem_cons_of_mem x (ih k (by simpa using h))

/-! ## Claim C2 -/

/-- C2 (code bug): `BasicReporter.formatError` recurses on `err.cause` with
no depth bound and no cycle detection, so on an error that is its own cause
the recursion never bottoms out — for every fuel bound the fueled evaluator
is still recursing when the fuel runs out, whatever `formatStack` and
whatever options.  The claim (and §4.2/§8 of the spec) require bounded
recursion with truncation-flagged output; the code has neither. -/
theorem formatError_diverges_on_self_cause :
    ∀ (fmtStack : Str → FormatOptions → Str) (fuel : Nat) (opts : FormatOptions),
      formatErrorWith fmtStack selfCauseHeap fuel 0 opts = none := by
  intro fmtStack fuel
  induction fuel with
  | zero => intro opts; rfl
  | succ k ih =>
    intro opts
    simp only [formatErrorWith, selfCauseHeap]
    rw [ih]

/-! ## Claim C5 -/

/-- C5 (confirmed): whenever `formatLine` renders a record, `log` writes the
rendered line with exactly one trailing newline, to the error stream exactly
when the record's level is below 2 and to standard output otherwise. -/
theorem log_routes_by_level (heap : ErrHeap) (fuel : Nat) (lo : LogObject)
    (ctx : ConsolaOptions) (line : Str)
    (h : basicFormatLine heap fuel lo ctx = some line) :
    basicLog heap fuel lo ctx =
      some (if lo.level < 2 then StreamKind.stderr else StreamKind.stdout,
        line ++ [Seg.nl]) ∧
    ((if lo.level < 2 then StreamKind.stderr else StreamKind.stdout) = StreamKind.stderr
      ↔ lo.level < 2) := by
  constructor
  · simp [basicLog, h]
  · by_cases hl : lo.level < 2 <;> simp [hl]

/-- Witness for C5 at end-to-end scenario 1: the info record formats to
`[info] [app] hello`, is routed to stdout (level 3), and gains one
newline. -/
theorem log_routes_by_level_witness :
    basicLog heap0 0 loInfo {} =
      some (if loInfo.level < 2 then StreamKind.stderr else StreamKind.stdout,
        strLit "[info] [app] hello" ++ [Seg.nl]) ∧
    ((if loInfo.level < 2 then StreamKind.stderr else StreamKind.stdout) = StreamKind.stderr
      ↔ loInfo.level < 2) :=
  log_routes_by_level heap0 0 loInfo {} (strLit "[info] [app] hello") (by decide)

/-! ## Claim C6 -/

/-- C6 (confirmed): the Fancy reporter's type colour is resolved through the
total fallback chain type table → level table → `"gray"`; in particular a
record with type `unknownType` and level 1 resolves to the level-1 colour
yellow, not gray. -/
theorem typeColor_fallback_chain :
    typeColorOf loUnknown = "yellow" ∧
    TYPE_COLOR_MAP "unknownType" = none ∧
    LEVEL_COLOR_MAP 1 = some "yellow" ∧
    (∀ lo c, TYPE_COLOR_MAP lo.type = some c → typeColorOf lo = c) ∧
    (∀ lo c, TYPE_COLOR_MAP lo.type = none → LEVEL_COLOR_MAP lo.level = some c →
      typeColorOf lo = c) ∧
    (∀ lo, TYPE_COLOR_MAP lo.type = none → LEVEL_COLOR_MAP lo.level = none →
      typeColorOf lo = "gray") := by
  refine ⟨by decide, by decide, by decide, ?_, ?_, ?_⟩
  · intro lo c h
    simp [typeColorOf, h, Option.orElse]
  · intro lo c h1 h2
    simp [typeColorOf, h1, h2, Option.orElse]
  · intro lo h1 h2
    simp [typeColorOf, h1, h2, Option.orElse]

/-- Witness for C6: a record missing from both tables resolves to gray. -/
theorem typeColor_fallback_chain_witness : typeColorOf loWeird = "gray" :=
  typeColor_fallback_chain.2.2.2.2.2 loWeird (by decide) (by decide)

/-! ## Claim C3 -/

/-- C3 (counterexample): the claim says that for every non-zero column count
below 80 the right-hand segment is the tag only; but at 40 columns with a
date the code's right segment is tag and date (the `columns ? [tag,
coloredDate] : [tag]` test only checks that columns is non-zero). -/
theorem fancyRight_below_80_not_tag_only :
    fancyRight tagApp dateNoon 40 ≠ tagApp := by decide

/-- C3 (amended): the right-hand segment of the Fancy non-box layout is the
tag joined with the formatted date whenever the column count is known
(non-zero) — even below 80 — and the tag alone exactly when the column count
is 0; the 80-column threshold only governs whether the segment is
right-aligned on the message line. -/
theorem fancyRight_characterization (tag cd : Str) (htag : tag ≠ []) (hcd : cd ≠ [])
    (c : Nat) :
    (c ≠ 0 → fancyRight tag cd c = tag ++ Seg.ch ' ' :: cd) ∧
    fancyRight tag cd 0 = tag := by
  have htag' : tag.isEmpty = false := by
    cases tag with
    | nil => exact absurd rfl htag
    | cons a l => rfl
  have hcd' : cd.isEmpty = false := by
    cases cd with
    | nil => exact absurd rfl hcd
    | cons a l => rfl
  have hsep : strLit " " = [Seg.ch ' '] := rfl
  constructor
  · intro hc
    simp [fancyRight, hc, filterAndJoin, htag', hcd', joinWith, hsep]
  · simp [fancyRight, filterAndJoin, htag', joinWith]

/-- Witness for C3's amended statement at the counterexample's input. -/
theorem fancyRight_characterization_witness :
    ((40 : Nat) ≠ 0 → fancyRight tagApp dateNoon 40 = tagApp ++ Seg.ch ' ' :: dateNoon) ∧
    fancyRight tagApp dateNoon 0 = tagApp :=
  fancyRight_characterization tagApp dateNoon (by decide) (by decide) 40

/-! ## Claim C7 -/

/-- C7 (confirmed): an odd padding is normalized up to the next even integer
before any width or height computation, so `box` with padding `n` (odd) and
padding `n + 1` return the same string; in particular padding 3 behaves
identically to padding 4. -/
theorem box_odd_padding_rounds_up (text : Str) (title : Option Str)
    (p : PartialBoxStyle) (n : Nat) (h : n % 2 = 1) :
    boxStr text ⟨title, { p with padding := some n }⟩ =
      boxStr text ⟨title, { p with padding := some (n + 1) }⟩ := by
  have h2 : (n + 1) % 2 = 0 := by omega
  have hp : paddingOffsetOf n = paddingOffsetOf (n + 1) := by
    simp [paddingOffsetOf, h, h2]
  simp only [boxStr, boxLines, resolveStyle]
  simp only [Option.getD_some]
  rw [hp]

/-- Witness for C7: `box("hi", {padding: 3}) = box("hi", {padding: 4})`. -/
theorem box_odd_padding_rounds_up_witness :
    boxStr (strLit "hi") ⟨none, { ({} : PartialBoxStyle) with padding := some 3 }⟩ =
      boxStr (strLit "hi") ⟨none, { ({} : PartialBoxStyle) with padding := some 4 }⟩ :=
  box_odd_padding_rounds_up (strLit "hi") none {} 3 (by decide)

/-! ## Claim C9 -/

theorem hbAux_pass (p : Str) (hp : btick ∉ p) (r : Str) :
    hbAux (p ++ r) none = p ++ hbAux r none := by
  induction p with
  | nil => simp
  | cons g p ih =>
    have hg : g ≠ btick := fun he => hp (by simp [he])
    have hp' : btick ∉ p := fun he => hp (by simp [he])
    simp only [List.cons_append, hbAux, if_neg hg]
    rw [show p.append r = p ++ r from rfl, ih hp']

theorem hbAux_capture (x : Str) (hx : btick ∉ x) (r : Str) :
    ∀ buf, hbAux (x ++ r) (some buf) = hbAux r (some (x.reverse ++ buf)) := by
  induction x with
  | nil => intro buf; simp
  | cons g x ih =>
    intro buf
    have hg : g ≠ btick := fun he => hx (by simp [he])
    have hx' : btick ∉ x := fun he => hx (by simp [he])
    simp only [List.cons_append, hbAux, if_neg hg]
    rw [show x.append r = x ++ r from rfl, ih hx' (g :: buf)]
    simp

/-- C9 (confirmed): Fancy backtick highlighting removes the delimiting
backticks themselves: a span `` `x` `` (with `x` non-empty and
backtick-free, preceded by backtick-free text) is replaced by `x` wrapped in
the cyan SGR pair, and highlighting continues on the remainder — so no
matched backticks survive into the rendered text. -/
theorem highlightBackticks_drops_delimiters (p x s : Str)
    (hp : btick ∉ p) (hx : btick ∉ x) (hxne : x ≠ []) :
    highlightBackticks (p ++ btick :: (x ++ btick :: s)) =
      p ++ (ansiWrap x ++ highlightBackticks s) := by
  unfold highlightBackticks
  rw [hbAux_pass p hp]
  congr 1
  have h1 : hbAux (btick :: (x ++ btick :: s)) none = hbAux (x ++ btick :: s) (some []) := by
    simp [hbAux]
  rw [h1, hbAux_capture x hx (btick :: s) []]
  simp only [List.append_nil]
  have hne2 : x.reverse.isEmpty = false := by
    cases hxr : x.reverse with
    | nil => exact absurd (List.reverse_eq_nil_iff.mp hxr) hxne
    | cons a l => rfl
  have h2 : hbAux (btick :: s) (some x.reverse) =
      ansiWrap x.reverse.reverse ++ hbAux s none := by
    simp [hbAux, hne2]
  rw [h2]
  simp

/-- Witness for C9 on a concrete message. -/
theorem highlightBackticks_drops_delimiters_witness :
    highlightBackticks (strLit "a " ++ btick :: (strLit "code" ++ btick :: strLit " z")) =
      strLit "a " ++ (ansiWrap (strLit "code") ++ highlightBackticks (strLit " z")) :=
  highlightBackticks_drops_delimiters (strLit "a ") (strLit "code") (strLit " z")
    (by decide) (by decide) (by decide)

/-! ## Claim C4 -/

theorem nl_not_mem_spaces (n : Nat) : Seg.nl ∉ spaces n := by
  simp [spaces, List.mem_replicate]

theorem nl_not_mem_trimStr {s : Str} (h : Seg.nl ∉ s) : Seg.nl ∉ trimStr s := by
  intro hm
  apply h
  have h1 := List.mem_reverse.mp hm
  have h2 := (List.dropWhile_sublist (l := (s.dropWhile isSpaceSeg).reverse)
    (p := isSpaceSeg)).subset h1
  have h3 := List.mem_reverse.mp h2
  exact (List.dropWhile_sublist (l := s) (p := isSpaceSeg)).subset h3

theorem parseStack_nlFree (stack : Str) : ∀ f ∈ parseStack stack, Seg.nl ∉ f := by
  intro f hf
  have h1 := List.mem_of_mem_filter hf
  obtain ⟨l, hl, rfl⟩ := List.mem_map.mp h1
  have h2 : l ∈ splitLines stack := List.drop_subset 1 (splitLines stack) hl
  exact nl_not_mem_trimStr (splitLines_nlFree stack l h2)

theorem parseStack_at (stack : Str) : ∀ f ∈ parseStack stack, f.take 3 = strLit "at " := by
  intro f hf
  have h1 := List.of_mem_filter hf
  simpa [isLocationFrame] using h1

theorem exists_at_decomp {f : Str} (h : f.take 3 = strLit "at ") :
    ∃ rest, f = Seg.ch 'a' :: Seg.ch 't' :: Seg.ch ' ' :: rest := by
  have hat : strLit "at " = [Seg.ch 'a', Seg.ch 't', Seg.ch ' '] := rfl
  rw [hat] at h
  cases f with
  | nil => simp at h
  | cons a f1 =>
    cases f1 with
    | nil => simp [List.take] at h
    | cons b f2 =>
      cases f2 with
      | nil => simp [List.take] at h
      | cons c f3 =>
        simp [List.take] at h
        obtain ⟨rfl, rfl, rfl⟩ := h
        exact ⟨f3, rfl⟩

theorem exactIndent_spaces_append {k : Nat} {f : Str}
    (hf : f.head? ≠ some (Seg.ch ' ')) : exactIndent k (spaces k ++ f) := by
  have hlen : (spaces k).length = k := by simp [spaces]
  constructor
  · have h1 := List.take_left (spaces k) f
    rwa [hlen] at h1
  · have h2 := List.drop_left (spaces k) f
    rw [hlen] at h2
    rw [h2]
    exact hf

theorem exactIndent_spaces (k : Nat) : exactIndent k (spaces k) := by
  have hlen : (spaces k).length = k := by simp [spaces]
  constructor
  · have h1 := List.take_length (spaces k)
    rwa [hlen] at h1
  · have h2 := List.drop_length (spaces k)
    rw [hlen] at h2
    rw [h2]
    simp

theorem splitAtLastClose_eq :
    ∀ {s inner after : Str}, splitAtLastClose s = some (inner, after) →
      s = inner ++ Seg.ch ')' :: after := by
  intro s
  induction s with
  | nil => intro inner after h; simp [splitAtLastClose] at h
  | cons g rest ih =>
    intro inner after h
    simp only [splitAtLastClose] at h
    cases hr : splitAtLastClose rest with
    | some p =>
      obtain ⟨a, b⟩ := p
      rw [hr] at h
      simp only [Option.some.injEq, Prod.mk.injEq] at h
      obtain ⟨h1, h2⟩ := h
      subst h1; subst h2
      have := ih hr
      simp [this]
    | none =>
      rw [hr] at h
      by_cases hg : g = Seg.ch ')'
      · simp only [if_pos hg, Option.some.injEq, Prod.mk.injEq] at h
        obtain ⟨h1, h2⟩ := h
        subst h1; subst h2
        simp [hg]
      · simp [if_neg hg] at h

theorem nl_not_mem_ansiWrap {s : Str} (h : Seg.nl ∉ s) : Seg.nl ∉ ansiWrap s := by
  simp [ansiWrap, h]

theorem mem_ansiWrap {g : Seg} {s : Str} (h : g ∈ ansiWrap s) :
    g = Seg.esc 5 ∨ g ∈ s := by
  simp [ansiWrap] at h
  tauto

theorem nl_not_mem_replaceAtPrefix {l : Str} (h : Seg.nl ∉ l) :
    Seg.nl ∉ replaceAtPrefix l := by
  cases l with
  | nil => simp [replaceAtPrefix]
  | cons g1 l1 =>
    cases l1 with
    | nil => simpa [replaceAtPrefix] using h
    | cons g2 rest =>
      have hrest : Seg.nl ∉ rest := fun hm => h (by simp [hm])
      simp only [replaceAtPrefix]
      split
      · intro hm
        rcases List.mem_append.mp hm with hm | hm
        · rcases mem_ansiWrap hm with hm1 | hm1
          · exact absurd hm1 (by simp)
          · rcases List.mem_cons.mp hm1 with h3 | h3
            · exact h (by simp [h3])
            · rcases List.mem_cons.mp h3 with h4 | h4
              · exact h (by simp [h4])
              · exact hrest ((List.takeWhile_sublist (p := isSpaceSeg)).subset h4)
        · exact hrest ((List.dropWhile_sublist (p := isSpaceSeg)).subset hm)
      · exact h

theorem nl_not_mem_replaceParens {l : Str} (h : Seg.nl ∉ l) :
    Seg.nl ∉ replaceParens l := by
  induction l with
  | nil => simp [replaceParens]
  | cons g rest ih =>
    have hg : Seg.nl ≠ g := fun he => h (by simp [he.symm])
    have hrest : Seg.nl ∉ rest := fun he => h (by simp [he])
    unfold replaceParens
    by_cases hp : g = Seg.ch '('
    · rw [if_pos hp]
      cases hsc : splitAtLastClose rest with
      | some pr =>
        obtain ⟨inner, after⟩ := pr
        by_cases hin : inner.isEmpty
        · simp only [hin, if_pos]
          intro hm
          rcases List.mem_cons.mp hm with hm | hm
          · exact hg hm
          · exact ih hrest hm
        · simp only [hin, Bool.false_eq_true, if_false]
          have hdec := splitAtLastClose_eq hsc
          intro hm
          rcases List.mem_cons.mp hm with hm | hm
          · exact absurd hm (by simp)
          · rcases List.mem_append.mp hm with hm | hm
            · have : Seg.nl ∈ inner := by simpa [ansiWrap] using hm
              exact hrest (by rw [hdec]; simp [this])
            · rcases List.mem_cons.mp hm with hm1 | hm1
              · exact absurd hm1 (by simp)
              · exact hrest (by rw [hdec]; simp [hm1])
      | none =>
        intro hm
        rcases List.mem_cons.mp hm with hm | hm
        · exact hg hm
        · exact ih hrest hm
    · rw [if_neg hp]
      intro hm
      rcases List.mem_cons.mp hm with hm | hm
      · exact hg hm
      · exact ih hrest hm

theorem replaceParens_cons_ne {g : Seg} {rest : Str} (h : g ≠ Seg.ch '(') :
    replaceParens (g :: rest) = g :: replaceParens rest := by
  simp [replaceParens, h]

theorem replaceAtPrefix_head (rest : Str) :
    ∃ t, replaceAtPrefix (Seg.ch 'a' :: Seg.ch 't' :: Seg.ch ' ' :: rest) =
      Seg.esc 5 :: t := by
  have ht : ((Seg.ch ' ' :: rest).takeWhile isSpaceSeg).isEmpty = false := by
    rw [List.takeWhile_cons]
    simp [isSpaceSeg]
  have hc : Seg.ch 'a' = Seg.ch 'a' ∧ Seg.ch 't' = Seg.ch 't' ∧
      ((Seg.ch ' ' :: rest).takeWhile isSpaceSeg).isEmpty = false := ⟨rfl, rfl, ht⟩
  simp only [replaceAtPrefix, if_pos hc]
  exact ⟨_, rfl⟩

theorem transform_head {f : Str} (hf : f.take 3 = strLit "at ") :
    ∃ t, replaceParens (replaceAtPrefix f) = Seg.esc 5 :: t := by
  obtain ⟨rest, rfl⟩ := exists_at_decomp hf
  obtain ⟨t, ht⟩ := replaceAtPrefix_head rest
  rw [ht, replaceParens_cons_ne (by decide)]
  exact ⟨_, rfl⟩

/-- C4 (counterexample): at `errorLevel = 1` the claim demands every frame
line be indented by `2 * (1 + 1) = 4` spaces, but the Fancy reporter's frame
formatter uses a fixed two-space indent. -/
theorem fancy_stack_indent_not_level_scaled :
    ¬ ∀ l ∈ (splitLines (fancyFormatStack stackOneFrame)).tail,
        exactIndent (2 * (1 + 1)) l := by decide

/-- C4 (amended): every line of `BasicReporter.formatStack` is indented by
exactly `2 * (errorLevel + 1)` spaces, but `FancyReporter.formatStack`
ignores the error level: its frame lines (the lines after the leading
newline) are indented by exactly 2 spaces at every error level. -/
theorem stack_frame_indentation :
    (∀ (stack : Str) (opts : FormatOptions) (l : Str),
        l ∈ splitLines (basicFormatStack stack opts) →
        exactIndent (2 * (opts.errorLevel + 1)) l) ∧
    (∀ (stack : Str) (l : Str), parseStack stack ≠ [] →
        l ∈ (splitLines (fancyFormatStack stack)).tail → exactIndent 2 l) := by
  constructor
  · intro stack opts l hl
    set k := 2 * (opts.errorLevel + 1) with hk
    have hind : Seg.nl ∉ spaces k := nl_not_mem_spaces k
    have hfr := parseStack_nlFree stack
    rw [basicFormatStack] at hl
    cases hfs : parseStack stack with
    | nil =>
      rw [hfs, splitLines_joinWith_nil (spaces k) (spaces k) hind] at hl
      simp only [List.mem_singleton] at hl
      subst hl
      exact exactIndent_spaces k
    | cons f restf =>
      have hf : Seg.nl ∉ f := hfr f (by rw [hfs]; simp)
      have hrestf : ∀ g ∈ restf, Seg.nl ∉ g :=
        fun g hg => hfr g (by rw [hfs]; simp [hg])
      rw [hfs, splitLines_joinWith_cons (spaces k) hind f restf (spaces k)
        hf hrestf hind] at hl
      rcases List.mem_cons.mp hl with hl | hl
      · subst hl
        obtain ⟨r0, hr0⟩ := exists_at_decomp (parseStack_at stack f (by rw [hfs]; simp))
        exact exactIndent_spaces_append (by rw [hr0]; simp)
      · obtain ⟨f2, hf2, rfl⟩ := List.mem_map.mp hl
        have hf2' : f2 ∈ parseStack stack := by rw [hfs]; simp [hf2]
        obtain ⟨r0, hr0⟩ := exists_at_decomp (parseStack_at stack f2 hf2')
        exact exactIndent_spaces_append (by rw [hr0]; simp)
  · intro stack l hne hl
    have hfr := parseStack_nlFree stack
    rw [fancyFormatStack, splitLines_nl_cons] at hl
    cases hfs : parseStack stack with
    | nil => exact absurd hfs hne
    | cons f restf =>
      have htr0 : ∀ g ∈ parseStack stack,
          Seg.nl ∉ spaces 2 ++ replaceParens (replaceAtPrefix g) := by
        intro g hg hmm
        rcases List.mem_append.mp hmm with hmm | hmm
        · exact nl_not_mem_spaces 2 hmm
        · exact nl_not_mem_replaceParens (nl_not_mem_replaceAtPrefix (hfr g hg)) hmm
      rw [hfs] at hl
      simp only [List.map_cons] at hl
      have hjoin := splitLines_joinWith_cons [] (by simp)
        (spaces 2 ++ replaceParens (replaceAtPrefix f))
        (restf.map fun line => spaces 2 ++ replaceParens (replaceAtPrefix line)) []
        (htr0 f (by rw [hfs]; simp))
        (by
          intro g hg
          obtain ⟨f2, hf2, rfl⟩ := List.mem_map.mp hg
          exact htr0 f2 (by rw [hfs]; simp [hf2]))
        (by simp)
      simp only [List.nil_append] at hjoin
      rw [hjoin] at hl
      simp only [List.tail_cons] at hl
      have hmem : l ∈ (f :: restf).map
          (fun line => spaces 2 ++ replaceParens (replaceAtPrefix line)) := by
        rcases List.mem_cons.mp hl with hl | hl
        · subst hl; simp
        · simp only [List.map_cons]
          exact List.mem_cons_of_mem _ (by simpa using hl)
      obtain ⟨f2, hf2, rfl⟩ := List.mem_map.mp hmem
      have hf2' : f2 ∈ parseStack stack := by rw [hfs]; exact hf2
      obtain ⟨t, htr⟩ := transform_head (parseStack_at stack f2 hf2')
      exact exactIndent_spaces_append (by rw [htr]; simp)

/-- Witness for the amended C4: the Basic reporter indents the single frame
of `stackOneFrame` by four spaces at error level 1, while the Fancy reporter
indents it by two. -/
theorem stack_frame_indentation_witness :
    exactIndent (2 * (({ errorLevel := 1 } : FormatOptions).errorLevel + 1))
      (spaces 4 ++ strLit "at f (a:1:1)") ∧
    exactIndent 2 (spaces 2 ++ replaceParens (replaceAtPrefix (strLit "at f (a:1:1)"))) :=
  ⟨stack_frame_indentation.1 stackOneFrame { errorLevel := 1 }
      (spaces 4 ++ strLit "at f (a:1:1)") (by decide),
   stack_frame_indentation.2 stackOneFrame
      (spaces 2 ++ replaceParens (replaceAtPrefix (strLit "at f (a:1:1)")))
      (by decide) (by decide)⟩

/-! ## Box geometry lemmas -/

theorem mem_repeatStr {g : Seg} {s : Str} : ∀ {n : Nat}, g ∈ repeatStr s n → g ∈ s := by
  intro n
  induction n with
  | zero => intro h; simp [repeatStr] at h
  | succ k ih =>
    intro h
    rcases List.mem_append.mp h with h | h
    · exact h
    · exact ih h

theorem getD_mem_or_eq {α : Type} (l : List α) (k : Nat) (d : α) :
    l.getD k d ∈ l ∨ l.getD k d = d := by
  by_cases h : k < l.length
  · exact Or.inl (getD_mem l k d h)
  · exact Or.inr (List.getD_eq_default l d (by omega))

theorem middleRowsOf_length (bs : BoxBorderStyle) (textLines : List Str)
    (va : Valign) (w pOff : Nat) :
    (middleRowsOf bs textLines va w pOff).length = textLines.length + pOff := by
  simp [middleRowsOf]

theorem textLine_vis_le (text : Str) (padding : Nat) :
    ∀ l ∈ splitLines text, visibleWidth l ≤ widthOf text padding := by
  intro l hl
  have h1 : visibleWidth l ≤ rawLen l := visibleWidth_le_rawLen l
  have h2 : rawLen l ≤ natMax ((splitLines text).map rawLen) :=
    le_natMax_of_mem (List.mem_map_of_mem rawLen hl)
  simp only [widthOf]
  omega

theorem middleRows_vis (bs : BoxBorderStyle) (textLines : List Str) (va : Valign)
    (w pOff : Nat) (hv : visibleWidth bs.v = 1)
    (hw : ∀ l ∈ textLines, visibleWidth l ≤ w) :
    ∀ r ∈ middleRowsOf bs textLines va w pOff, visibleWidth r = w + pOff + 2 := by
  intro r hr
  simp only [middleRowsOf, List.mem_map, List.mem_range] at hr
  obtain ⟨i, _, rfl⟩ := hr
  split
  · simp only [visibleWidth_append, visibleWidth_spaces, hv]
    omega
  · next hcond =>
    push_neg at hcond
    obtain ⟨hlo, hhi⟩ := hcond
    have hline : visibleWidth (textLines.getD
        (i - valignOffsetOf va (textLines.length + pOff) textLines.length pOff) []) ≤ w := by
      rcases getD_mem_or_eq textLines
        (i - valignOffsetOf va (textLines.length + pOff) textLines.length pOff)
        ([] : Str) with hm | he
      · exact hw _ hm
      · rw [he]; simp [visibleWidth, stripAnsi]
    simp only [visibleWidth_append, visibleWidth_spaces, hv]
    omega

theorem topLineOf_none (bs : BoxBorderStyle) (w pOff : Nat) :
    topLineOf bs none w pOff = some (bs.tl ++ repeatStr bs.h (w + pOff) ++ bs.tr) := rfl

theorem boxLines_eq (text : Str) (opts : BoxOpts) (top : Str)
    (h : topLineOf (borderOf (resolveStyle opts.style)) opts.title
        (widthOf text (resolveStyle opts.style).padding)
        (paddingOffsetOf (resolveStyle opts.style).padding) = some top) :
    boxLines text opts = some (top ::
      middleRowsOf (borderOf (resolveStyle opts.style)) (splitLines text)
        (resolveStyle opts.style).valign
        (widthOf text (resolveStyle opts.style).padding)
        (paddingOffsetOf (resolveStyle opts.style).padding)
      ++ [bottomRowOf (borderOf (resolveStyle opts.style))
          (widthOffsetOf text (resolveStyle opts.style).padding)]) := by
  simp only [borderOf, widthOf] at h
  simp only [boxLines, borderOf, widthOf, widthOffsetOf]
  rw [h]

theorem boxLines_eq_none (text : Str) (opts : BoxOpts)
    (h : topLineOf (borderOf (resolveStyle opts.style)) opts.title
        (widthOf text (resolveStyle opts.style).padding)
        (paddingOffsetOf (resolveStyle opts.style).padding) = none) :
    boxLines text opts = none := by
  simp only [borderOf, widthOf] at h
  simp only [boxLines]
  rw [h]

/-! ## Claim C1 -/

/-- C1 (counterexample): the claim computes the box width from the maximum
visible (ANSI-stripped) line width, but the code uses the raw `line.length`;
on a text whose single line carries colour escapes (visible width 2, raw
length 12) the rows do not have visible width `specWidthOffset + 2 = 8`. -/
theorem box_rows_not_spec_width :
    ¬ ∀ r ∈ (boxLines coloredAB ⟨none, {}⟩).getD [],
        visibleWidth r =
          specWidthOffsetOf coloredAB (resolveStyle {}).padding + 2 := by
  decide

/-- C1 (amended): every row of a (title-less) box has the same visible width
`widthOffset + 2`, where `widthOffset = width + paddingOffset` and `width`
is the maximum *raw* line length (`line.length`, counting escape characters)
plus `paddingOffset`; the equality of all rows holds regardless of embedded
colour codes because the right fill compensates with the stripped width. -/
theorem box_rows_uniform_visible_width (text : Str) (p : PartialBoxStyle)
    (hg : glyphsVisOne (resolveBorder (resolveStyle p).borderStyle)) :
    (boxLines text ⟨none, p⟩).isSome = true ∧
    ∀ r ∈ (boxLines text ⟨none, p⟩).getD [],
      visibleWidth r = widthOffsetOf text (resolveStyle p).padding + 2 := by
  obtain ⟨h1, h2, h3, h4, h5, h6⟩ := hg
  have htop := topLineOf_none (borderOf (resolveStyle p))
    (widthOf text (resolveStyle p).padding)
    (paddingOffsetOf (resolveStyle p).padding)
  have hbox := boxLines_eq text ⟨none, p⟩ _ htop
  constructor
  · rw [hbox]; rfl
  · rw [hbox]
    intro r hr
    simp only [Option.getD_some] at hr
    rcases List.mem_cons.mp hr with hr | hr
    · subst hr
      simp only [borderOf, colorizeBorder, visibleWidth_append,
        visibleWidth_ansiWrap, visibleWidth_repeatStr, h1, h2, h5, widthOffsetOf]
      omega
    · rcases List.mem_append.mp hr with hr | hr
      · have hmid := middleRows_vis (borderOf (resolveStyle p)) (splitLines text)
          (resolveStyle p).valign (widthOf text (resolveStyle p).padding)
          (paddingOffsetOf (resolveStyle p).padding)
          (by simp [borderOf, colorizeBorder, visibleWidth_ansiWrap, h6])
          (textLine_vis_le text (resolveStyle p).padding) r hr
        simp only [widthOffsetOf]
        omega
      · simp only [List.mem_singleton] at hr
        subst hr
        simp only [bottomRowOf, borderOf, colorizeBorder, visibleWidth_append,
          visibleWidth_ansiWrap, visibleWidth_repeatStr, h3, h4, h5, widthOffsetOf]
        omega

/-- Witness for C1's amended statement on the colourised input. -/
theorem box_rows_uniform_visible_width_witness :
    (boxLines coloredAB ⟨none, {}⟩).isSome = true ∧
    ∀ r ∈ (boxLines coloredAB ⟨none, {}⟩).getD [],
      visibleWidth r = widthOffsetOf coloredAB (resolveStyle {}).padding + 2 :=
  box_rows_uniform_visible_width coloredAB {} (by decide)

/-! ## Claim C8 -/

/-- C8 (confirmed): with a non-empty title that fits the computed width, the
top border is the top-left glyph, `floor((width - visibleWidth(title)) / 2)`
horizontal glyphs, the title, the remaining fill and the top-right glyph;
the two fills and the title together span exactly `widthOffset` columns, the
length of the untitled rule (for `"hi"` with default padding the witness
checks `width = 4` and left fill `1`). -/
theorem box_title_centering (text : Str) (title : Str) (p : PartialBoxStyle)
    (ht : title ≠ [])
    (hw : visibleWidth title ≤ widthOf text (resolveStyle p).padding)
    (hh : visibleWidth (resolveBorder (resolveStyle p).borderStyle).h = 1) :
    (boxLines text ⟨some title, p⟩).bind List.head? =
      some ((borderOf (resolveStyle p)).tl
        ++ repeatStr (borderOf (resolveStyle p)).h
            (leftFillCount (widthOf text (resolveStyle p).padding) (visibleWidth title))
        ++ title
        ++ repeatStr (borderOf (resolveStyle p)).h
            (rightFillCount (widthOf text (resolveStyle p).padding) (visibleWidth title)
              (paddingOffsetOf (resolveStyle p).padding))
        ++ (borderOf (resolveStyle p)).tr) ∧
    leftFillCount (widthOf text (resolveStyle p).padding) (visibleWidth title)
      + visibleWidth title
      + rightFillCount (widthOf text (resolveStyle p).padding) (visibleWidth title)
          (paddingOffsetOf (resolveStyle p).padding)
      = widthOffsetOf text (resolveStyle p).padding := by
  set w := widthOf text (resolveStyle p).padding with hwdef
  set pOff := paddingOffsetOf (resolveStyle p).padding with hpdef
  set tv := visibleWidth title with htv
  have htE : title.isEmpty = false := by
    cases title with
    | nil => exact absurd rfl ht
    | cons a l => rfl
  have hlcle : leftFillCount w tv ≤ w - tv := Nat.div_le_self _ _
  have hfill : visibleWidth (repeatStr (borderOf (resolveStyle p)).h
      (leftFillCount w tv)) = leftFillCount w tv := by
    simp [visibleWidth_repeatStr, borderOf, colorizeBorder, visibleWidth_ansiWrap, hh]
  have hrc : ((w : Int) - tv - visibleWidth (repeatStr (borderOf (resolveStyle p)).h
      ((w - tv) / 2)) + pOff) = ((rightFillCount w tv pOff : Nat) : Int) := by
    have : visibleWidth (repeatStr (borderOf (resolveStyle p)).h ((w - tv) / 2))
        = (w - tv) / 2 := by
      simpa [leftFillCount] using hfill
    rw [this]
    simp only [rightFillCount, leftFillCount]
    omega
  have htopline : topLineOf (borderOf (resolveStyle p)) (some title) w pOff =
      some ((borderOf (resolveStyle p)).tl
        ++ repeatStr (borderOf (resolveStyle p)).h (leftFillCount w tv)
        ++ title
        ++ repeatStr (borderOf (resolveStyle p)).h (rightFillCount w tv pOff)
        ++ (borderOf (resolveStyle p)).tr) := by
    simp only [topLineOf, htE, Bool.false_eq_true, if_false]
    rw [if_neg (by omega)]
    rw [hrc]
    rw [if_neg (by omega)]
    simp only [Int.toNat_ofNat, leftFillCount]
  constructor
  · rw [boxLines_eq text ⟨some title, p⟩ _ htopline]
    simp
  · simp only [rightFillCount, leftFillCount, widthOffsetOf, ← hwdef, ← hpdef]
    omega

/-- Witness for C8 at `box("hi", {title: "T"})` with default padding 2:
width 4, left fill `floor((4 - 1)/2) = 1`. -/
theorem box_title_centering_witness :
    widthOf (strLit "hi") (resolveStyle {}).padding = 4 ∧
    leftFillCount (widthOf (strLit "hi") (resolveStyle {}).padding)
      (visibleWidth (strLit "T")) = 1 ∧
    ((boxLines (strLit "hi") ⟨some (strLit "T"), {}⟩).bind List.head? =
      some ((borderOf (resolveStyle {})).tl
        ++ repeatStr (borderOf (resolveStyle {})).h
            (leftFillCount (widthOf (strLit "hi") (resolveStyle {}).padding)
              (visibleWidth (strLit "T")))
        ++ strLit "T"
        ++ repeatStr (borderOf (resolveStyle {})).h
            (rightFillCount (widthOf (strLit "hi") (resolveStyle {}).padding)
              (visibleWidth (strLit "T"))
              (paddingOffsetOf (resolveStyle {}).padding))
        ++ (borderOf (resolveStyle {})).tr) ∧
    leftFillCount (widthOf (strLit "hi") (resolveStyle {}).padding)
        (visibleWidth (strLit "T"))
      + visibleWidth (strLit "T")
      + rightFillCount (widthOf (strLit "hi") (resolveStyle {}).padding)
          (visibleWidth (strLit "T"))
          (paddingOffsetOf (resolveStyle {}).padding)
      = widthOffsetOf (strLit "hi") (resolveStyle {}).padding) :=
  ⟨by decide, by decide,
    box_title_centering (strLit "hi") (strLit "T") {} (by decide) (by decide) (by decide)⟩

/-! ## Claim C10 -/

theorem nl_not_mem_wrapped_rule {a h c : Str} (ha : Seg.nl ∉ a) (hh : Seg.nl ∉ h)
    (hc : Seg.nl ∉ c) (n : Nat) :
    Seg.nl ∉ ansiWrap a ++ repeatStr (ansiWrap h) n ++ ansiWrap c := by
  intro hm
  rcases List.mem_append.mp hm with hm | hm
  · rcases List.mem_append.mp hm with hm | hm
    · rcases mem_ansiWrap hm with he | hm1
      · exact Seg.noConfusion he
      · exact ha hm1
    · rcases mem_ansiWrap (mem_repeatStr hm) with he | hm1
      · exact Seg.noConfusion he
      · exact hh hm1
  · rcases mem_ansiWrap hm with he | hm1
    · exact Seg.noConfusion he
    · exact hc hm1

theorem topLineOf_nlFree {b0 : BoxBorderStyle} (hg : glyphsNlFree b0)
    {title : Option Str} (ht : ∀ t, title = some t → Seg.nl ∉ t)
    {w pOff : Nat} {top : Str}
    (h : topLineOf (colorizeBorder b0) title w pOff = some top) : Seg.nl ∉ top := by
  obtain ⟨g1, g2, _, _, g5, _⟩ := hg
  cases title with
  | none =>
    rw [topLineOf_none] at h
    simp only [Option.some.injEq] at h
    subst h
    exact nl_not_mem_wrapped_rule g1 g5 g2 (w + pOff)
  | some t =>
    have htn := ht t rfl
    simp only [topLineOf] at h
    split at h
    · simp only [Option.some.injEq] at h
      subst h
      exact nl_not_mem_wrapped_rule g1 g5 g2 (w + pOff)
    · split at h
      · exact absurd h (by simp)
      · split at h
        · exact absurd h (by simp)
        · simp only [Option.some.injEq] at h
          subst h
          intro hm
          rcases List.mem_append.mp hm with hm | hm
          · rcases List.mem_append.mp hm with hm | hm
            · rcases List.mem_append.mp hm with hm | hm
              · rcases List.mem_append.mp hm with hm | hm
                · rcases mem_ansiWrap hm with he | hm1
                  · exact Seg.noConfusion he
                  · exact g1 hm1
                · rcases mem_ansiWrap (mem_repeatStr hm) with he | hm1
                  · exact Seg.noConfusion he
                  · exact g5 hm1
              · exact htn hm
            · rcases mem_ansiWrap (mem_repeatStr hm) with he | hm1
              · exact Seg.noConfusion he
              · exact g5 hm1
          · rcases mem_ansiWrap hm with he | hm1
            · exact Seg.noConfusion he
            · exact g2 hm1

theorem middleRows_nlFree {b0 : BoxBorderStyle} (hg : glyphsNlFree b0)
    (textLines : List Str) (htl : ∀ l ∈ textLines, Seg.nl ∉ l)
    (va : Valign) (w pOff : Nat) :
    ∀ r ∈ middleRowsOf (colorizeBorder b0) textLines va w pOff, Seg.nl ∉ r := by
  obtain ⟨_, _, _, _, _, g6⟩ := hg
  intro r hr
  simp only [middleRowsOf, List.mem_map, List.mem_range] at hr
  obtain ⟨i, _, rfl⟩ := hr
  split
  · intro hm
    rcases List.mem_append.mp hm with hm | hm
    · rcases List.mem_append.mp hm with hm | hm
      · rcases mem_ansiWrap hm with he | hm1
        · exact Seg.noConfusion he
        · exact g6 hm1
      · exact nl_not_mem_spaces _ hm
    · rcases mem_ansiWrap hm with he | hm1
      · exact Seg.noConfusion he
      · exact g6 hm1
  · intro hm
    rcases List.mem_append.mp hm with hm | hm
    · rcases List.mem_append.mp hm with hm | hm
      · rcases List.mem_append.mp hm with hm | hm
        · rcases List.mem_append.mp hm with hm | hm
          · rcases mem_ansiWrap hm with he | hm1
            · exact Seg.noConfusion he
            · exact g6 hm1
          · exact nl_not_mem_spaces _ hm
        · rcases getD_mem_or_eq textLines
            (i - valignOffsetOf va (textLines.length + pOff) textLines.length pOff)
            ([] : Str) with hmem | he
          · exact htl _ hmem hm
          · rw [he] at hm
            simp at hm
      · exact nl_not_mem_spaces _ hm
    · rcases mem_ansiWrap hm with he | hm1
      · exact Seg.noConfusion he
      · exact g6 hm1

theorem getLast?_cons_append_singleton {α : Type} (x a : α) (l : List α) :
    (x :: (l ++ [a])).getLast? = some a := by
  induction l generalizing x with
  | nil => simp
  | cons y l ih =>
    rw [List.cons_append, List.getLast?_cons_cons]
    exact ih y

/-- C10 (confirmed, for well-formed glyphs and a newline-free title): the
string returned by `box`, split on newline, has exactly
`n + paddingOffset + 2` lines, where `n` is the number of lines of the input
text (at least one, the empty string splitting to one empty line); the
first line is the top border and the last the bottom border. -/
theorem box_split_line_count (text : Str) (title : Option Str) (p : PartialBoxStyle)
    (hg : glyphsNlFree (resolveBorder (resolveStyle p).borderStyle))
    (ht : ∀ t, title = some t → Seg.nl ∉ t)
    (hs : (boxLines text ⟨title, p⟩).isSome = true) :
    (boxStr text ⟨title, p⟩).map (fun s => (splitLines s).length) =
      some ((splitLines text).length + paddingOffsetOf (resolveStyle p).padding + 2) ∧
    (boxStr text ⟨title, p⟩).bind (fun s => (splitLines s).head?) =
      topLineOf (borderOf (resolveStyle p)) title
        (widthOf text (resolveStyle p).padding)
        (paddingOffsetOf (resolveStyle p).padding) ∧
    (boxStr text ⟨title, p⟩).bind (fun s => (splitLines s).getLast?) =
      some (bottomRowOf (borderOf (resolveStyle p))
        (widthOffsetOf text (resolveStyle p).padding)) := by
  cases htl : topLineOf (borderOf (resolveStyle p)) title
      (widthOf text (resolveStyle p).padding)
      (paddingOffsetOf (resolveStyle p).padding) with
  | none =>
    rw [boxLines_eq_none text ⟨title, p⟩ htl] at hs
    simp at hs
  | some top =>
    have hbox := boxLines_eq text ⟨title, p⟩ top htl
    have htopnl : Seg.nl ∉ top :=
      topLineOf_nlFree hg ht (by simpa [borderOf] using htl)
    have hmidnl := middleRows_nlFree hg (splitLines text) (splitLines_nlFree text)
      (resolveStyle p).valign (widthOf text (resolveStyle p).padding)
      (paddingOffsetOf (resolveStyle p).padding)
    have hbotnl : Seg.nl ∉ bottomRowOf (borderOf (resolveStyle p))
        (widthOffsetOf text (resolveStyle p).padding) := by
      obtain ⟨_, _, g3, g4, g5, _⟩ := hg
      exact nl_not_mem_wrapped_rule g3 g5 g4 _
    have hrows : ∀ r ∈ top ::
        middleRowsOf (borderOf (resolveStyle p)) (splitLines text)
          (resolveStyle p).valign (widthOf text (resolveStyle p).padding)
          (paddingOffsetOf (resolveStyle p).padding)
        ++ [bottomRowOf (borderOf (resolveStyle p))
            (widthOffsetOf text (resolveStyle p).padding)], Seg.nl ∉ r := by
      intro r hr
      rcases List.mem_cons.mp hr with hr | hr
      · subst hr; exact htopnl
      · rcases List.mem_append.mp hr with hr | hr
        · exact hmidnl r (by simpa [borderOf] using hr)
        · simp only [List.mem_singleton] at hr
          subst hr; exact hbotnl
    have hsplit := splitLines_joinLines _ hrows (by simp)
    have hbs : boxStr text ⟨title, p⟩ = some (joinLines (top ::
        middleRowsOf (borderOf (resolveStyle p)) (splitLines text)
          (resolveStyle p).valign (widthOf text (resolveStyle p).padding)
          (paddingOffsetOf (resolveStyle p).padding)
        ++ [bottomRowOf (borderOf (resolveStyle p))
            (widthOffsetOf text (resolveStyle p).padding)])) := by
      rw [boxStr, hbox]
      rfl
    refine ⟨?_, ?_, ?_⟩
    · rw [hbs]
      simp only [Option.map_some']
      rw [hsplit]
      simp only [List.length_cons, List.length_append, middleRowsOf_length,
        List.length_nil, Option.some.injEq]
    · rw [hbs]
      simp only [Option.some_bind]
      rw [hsplit]
      rfl
    · rw [hbs]
      simp only [Option.some_bind]
      rw [hsplit]
      exact getLast?_cons_append_singleton top _ _

/-- Witness for C10 on a two-line text with a title. -/
theorem box_split_line_count_witness :
    (boxStr (strLit "a\nb") ⟨some (strLit "T"), {}⟩).map
        (fun s => (splitLines s).length) =
      some ((splitLines (strLit "a\nb")).length
        + paddingOffsetOf (resolveStyle {}).padding + 2) ∧
    (boxStr (strLit "a\nb") ⟨some (strLit "T"), {}⟩).bind
        (fun s => (splitLines s).head?) =
      topLineOf (borderOf (resolveStyle {})) (some (strLit "T"))
        (widthOf (strLit "a\nb") (resolveStyle {}).padding)
        (paddingOffsetOf (resolveStyle {}).padding) ∧
    (boxStr (strLit "a\nb") ⟨some (strLit "T"), {}⟩).bind
        (fun s => (splitLines s).getLast?) =
      some (bottomRowOf (borderOf (resolveStyle {}))
        (widthOffsetOf (strLit "a\nb") (resolveStyle {}).padding)) :=
  box_split_line_count (strLit "a\nb") (some (strLit "T")) {} (by decide)
    (by intro t htt; cases htt; decide) (by decide)

end Consola
